import Mathlib

/-!
# Verification of LinVAM's voice-command engine (`linvam/profileexecutor.py`)

This file gives a shallow embedding in Lean 4 of the phrase-expansion,
command-table, dispatch and command-execution logic of
`src/linvam/profileexecutor.py`, and proves (or refutes) the specification
claims about it.

Python strings are modelled by `String` / `List Char`; Python `int` by `Int`;
dictionaries holding command records by structures; the mutable
`ProfileExecutor` object by an explicit state record.
-/

set_option autoImplicit false

namespace LinVAM

/-! ## Python string helpers

`pyStrip` models Python's `str.strip()` (drop whitespace at both ends),
`splitWsAux`/`pySplitWs` model `str.split()` with no argument (split on runs of
whitespace, dropping empty pieces), `joinSpace` models `' '.join(...)`, and
`lowerStr` models `str.lower()` (per-character lowering; the command names
handled by the program are ASCII). -/

def pyStrip (s : List Char) : List Char :=
  ((s.dropWhile Char.isWhitespace).reverse.dropWhile Char.isWhitespace).reverse

def stripS (s : String) : String := ⟨pyStrip s.toList⟩

def splitWsAux (cur : List Char) : List Char → List (List Char)
  | [] => if cur = [] then [] else [cur.reverse]
  | c :: cs =>
    if c.isWhitespace then
      if cur = [] then splitWsAux [] cs else cur.reverse :: splitWsAux [] cs
    else
      splitWsAux (c :: cur) cs

def pySplitWs (s : List Char) : List (List Char) := splitWsAux [] s

def joinSpace : List (List Char) → List Char
  | [] => []
  | [w] => w
  | w :: w' :: ws => w ++ ' ' :: joinSpace (w' :: ws)

/-- Models `' '.join(text.split())`: collapse whitespace runs to single spaces
and trim both ends. -/
def normalizeWs (s : List Char) : List Char := joinSpace (pySplitWs s)

def lowerStr (s : String) : String := ⟨s.toList.map Char.toLower⟩

/-- Prepend a character onto the first piece of a split-in-progress. -/
def consHead (c : Char) : List (List Char) → List (List Char)
  | [] => [[c]]
  | p :: ps => (c :: p) :: ps

/-- Models `str.split(',')`: split on every comma (no bracket awareness);
`n` commas yield `n + 1` pieces, empties included. -/
def splitComma : List Char → List (List Char)
  | [] => [[]]
  | c :: cs => if c = ',' then [] :: splitComma cs else consHead c (splitComma cs)

/-! ## `_expand_optional_brackets` (profileexecutor.py lines 27-106)

The Python function finds the matches of the regex `\[([^\]]+)\]` in the text
(a `[`, one or more non-`]` characters, then `]`; matches are found left to
right, each extending to the first `]` after its `[`), splits the text into
fixed segments and optional segments (the bracket contents, comma-split into
alternatives, each stripped), forms the cartesian product where each bracket
contributes "omitted" plus each alternative, joins each combination,
normalizes whitespace, drops empty variations, and falls back to `[text]`
when there is no match or every variation collapsed to empty. -/

/-- A segment of the command text: literal text, or a matched bracket's
list of alternatives (comma-split and stripped). -/
inductive Seg where
  | fixed (s : List Char)
  | opt (alts : List (List Char))
  deriving DecidableEq, Repr

/-- Prepend a literal character in front of a segment list, merging it into a
leading fixed segment when there is one. -/
def consFixed (c : Char) : List Seg → List Seg
  | Seg.fixed s :: rest => Seg.fixed (c :: s) :: rest
  | segs => Seg.fixed [c] :: segs

/-- One left-to-right pass finding the matches of `\[([^\]]+)\]`, exactly as
`re.finditer` does: at a `[`, the match extends to the first following `]` and
must have non-empty content; `[]` leaves both characters literal; a `[` with
no later `]` leaves everything literal.  The first argument is `none` when
scanning outside a bracket, and `some acc` (content so far, reversed) after an
unclosed `[`. -/
def scanSegs : Option (List Char) → List Char → List Seg
  | none, [] => []
  | some acc, [] => [Seg.fixed ('[' :: acc.reverse)]
  | none, c :: cs =>
    if c = '[' then scanSegs (some []) cs
    else consFixed c (scanSegs none cs)
  | some acc, c :: cs =>
    if c = ']' then
      if acc = [] then consFixed '[' (consFixed ']' (scanSegs none cs))
      else Seg.opt ((splitComma acc.reverse).map pyStrip) :: scanSegs none cs
    else scanSegs (some (c :: acc)) cs

def segAlts : Seg → Option (List (List Char))
  | Seg.opt alts => some alts
  | Seg.fixed _ => none

/-- The per-bracket choice lists: `[None] + alternatives` for each optional
segment, in order. -/
def choiceLists (segs : List Seg) : List (List (Option (List Char))) :=
  (segs.filterMap segAlts).map (fun alts => none :: alts.map some)

/-- `itertools.product`: all combinations, rightmost factor varying fastest. -/
def product {α : Type} : List (List α) → List (List α)
  | [] => [[]]
  | l :: ls => l.flatMap (fun x => (product ls).map (fun r => x :: r))

/-- Rebuild one variation from the segments and one combination of choices
(the choices are consumed positionally by the optional segments; `none` means
the bracket is omitted). -/
def buildVariation : List Seg → List (Option (List Char)) → List Char
  | [], _ => []
  | Seg.fixed s :: rest, choices => s ++ buildVariation rest choices
  | Seg.opt _ :: rest, [] => buildVariation rest []
  | Seg.opt _ :: rest, ch :: chs => ch.getD [] ++ buildVariation rest chs

/-- The non-fallback path: all cartesian-product variations, each
whitespace-normalized, empty results dropped. -/
def bracketVariations (text : String) : List String :=
  let segs := scanSegs none text.toList
  ((((product (choiceLists segs)).map
      (fun combo => normalizeWs (buildVariation segs combo))).filter
      (fun v => v ≠ [])).map (fun v => (⟨v⟩ : String)))

/-- `_expand_optional_brackets`: expansion of one command-name part into all
its variations; returns `[text]` verbatim when the regex finds no bracketed
span, and also when every variation collapsed to the empty string. -/
def expand_optional_brackets (text : String) : List String :=
  if (scanSegs none text.toList).filterMap segAlts = [] then [text]
  else if bracketVariations text = [] then [text]
  else bracketVariations text

/-! ## Profile data model (the `dict` records loaded from a profile file)

A command record carries `name`, `actions`, `repeat` and `async`
(profileexecutor.py lines 683-699 read exactly these keys).  Actions are
tagged records; only their identity matters for the claims below, so an
action is modelled by its record content abstracted to a label. -/

structure Action where
  label : String
  deriving DecidableEq, Repr

structure CommandSpec where
  name : String
  actions : List Action
  «repeat» : Int
  async : Bool
  deriving DecidableEq, Repr

structure Profile where
  name : String
  commands : List CommandSpec
  deriving DecidableEq, Repr

/-! ## `set_profile` (profileexecutor.py lines 335-366)

`COMMAND_NAME_COMMA_SPLIT_REGGEX = r",(?![^\[]*\])"` splits a command name on
the commas that are not followed by `[^\[]*\]`, i.e. on a comma such that no
`]` occurs after it before the next `[`. -/

/-- The negative lookahead `[^\[]*\]`: true iff some `]` occurs in the list
before any `[`. -/
def lookaheadCloses : List Char → Bool
  | [] => false
  | c :: cs => if c = ']' then true else if c = '[' then false else lookaheadCloses cs

/-- `re.split(COMMAND_NAME_COMMA_SPLIT_REGGEX, s)`: split on unprotected
commas (a comma is protected when a `]` follows it before any `[`). -/
def splitCommandName : List Char → List (List Char)
  | [] => [[]]
  | c :: cs =>
    if c = ',' && !lookaheadCloses cs then [] :: splitCommandName cs
    else consHead c (splitCommandName cs)

/-- Stable insertion of a phrase into a list sorted by descending length:
the element is placed before the first phrase that is not strictly longer.
Together with `sortLenDesc` this models Python's stable
`list.sort(key=len, reverse=True)` (line 357). -/
def insertLenDesc (x : String) : List String → List String
  | [] => [x]
  | y :: ys => if x.length < y.length then y :: insertLenDesc x ys else x :: y :: ys

def sortLenDesc : List String → List String
  | [] => []
  | x :: xs => insertLenDesc x (sortLenDesc xs)

/-- The phrase-building loop of `set_profile` (lines 342-357): for every
command, split its lowered, stripped name on unprotected commas, expand each
stripped part's optional brackets, append every variation, then sort the
whole list by descending length (stable). -/
def buildCommandsList (prof : Profile) : List String :=
  let l := prof.commands.foldl
    (fun acc w =>
      (splitCommandName (lowerStr (stripS w.name)).toList).foldl
        (fun acc2 part => acc2 ++ expand_optional_brackets (stripS ⟨part⟩)) acc)
    []
  sortLenDesc l

/-! ## Executor state and the stateful operations -/

/-- Per-command worker thread record (`CommandThread.__init__`, lines
662-669): the action list, the raw repeat count, and the cooperative stop
flag. -/
structure CommandThread where
  m_actions : List Action
  m_repeat : Int
  m_stop : Bool
  deriving DecidableEq, Repr

/-- Outcome of the engine's `SetGrammar` capability as observed by
`_apply_grammar_constraint` (lines 368-412): the method may be absent
(`hasattr` fails), may raise, or may succeed. -/
inductive SetGrammarBehavior where
  | unavailable
  | raises (msg : String)
  | succeeds
  deriving DecidableEq, Repr

/-- The mutable fields of `ProfileExecutor` relevant to the verified
operations.  `recognizer` records whether a recognizer object exists;
`grammar_applied` is the phrase list currently constraining the engine
(`none` = unconstrained recognition); `set_grammar` is the engine's
capability.  Stream/audio handles are outside the embedding. -/
structure ExecutorState where
  m_profile : Option Profile
  commands_list : List String
  m_cmd_threads : List (String × CommandThread)
  recognizer : Bool
  set_grammar : SetGrammarBehavior
  grammar_supported : Bool
  grammar_applied : Option (List String)
  listening : Bool
  deriving DecidableEq, Repr

/-- `_apply_grammar_constraint` (lines 368-412).  The Python body wraps the
`SetGrammar` call in `try`/`except` catching every exception, so the
operation is total (it never propagates an error): its embedding returns a
plain state.  On the `hasattr` failure and on both `except` branches it calls
`_show_grammar_not_supported_warning`, whose only state effect is
`grammar_supported = False` (line 416); only the success branch constrains
the engine and sets `grammar_supported = True`. -/
def apply_grammar_constraint (st : ExecutorState) : ExecutorState :=
  if st.recognizer = false then st
  else if st.commands_list = [] then st
  else
    match st.set_grammar with
    | SetGrammarBehavior.unavailable => { st with grammar_supported := false }
    | SetGrammarBehavior.raises _ => { st with grammar_supported := false }
    | SetGrammarBehavior.succeeds =>
      { st with grammar_supported := true, grammar_applied := some st.commands_list }

/-- `set_profile` (lines 335-366): store the profile, rebuild
`commands_list` from scratch (starting from `[]`), and re-apply the grammar
constraint.  Listening is stopped before the swap and resumed after, so the
`listening` flag is restored; the file write (`save_to_commands_file`) is
external I/O outside the embedding. -/
def set_profile (st : ExecutorState) (p : Option Profile) : ExecutorState :=
  let st1 := { st with m_profile := p, commands_list := ([] : List String) }
  match p with
  | none => st1
  | some prof => apply_grammar_constraint { st1 with commands_list := buildCommandsList prof }

/-- Substring search: does `needle` occur as a contiguous run at some
position of the list? -/
def containsAux (needle : List Char) : List Char → Bool
  | [] => needle.isEmpty
  | c :: cs => needle.isPrefixOf (c :: cs) || containsAux needle cs

/-- Python's `command in result_string` substring test. -/
def strContains (hay needle : String) : Bool :=
  containsAux needle.toList hay.toList

/-- `check_commands` (lines 223-229): scan `commands_list` in order, dispatch
the first phrase contained in the transcript, and stop (`break`) — at most
one command per finalized transcript.  The returned phrase is the one handed
to `_do_command`. -/
def check_commands (commands_list : List String) (result_string : String) : Option String :=
  match commands_list with
  | [] => none
  | command :: rest =>
    if strContains result_string command then some command
    else check_commands rest result_string

/-- Default ignore list of `_is_ignored_single_word` (line 219). -/
def defaultIgnoredWords : List String :=
  ["the", "a", "an", "but", "their", "there", "they", "be", "to", "of", "and"]

/-- The ignore list in effect: the configured one, or the default when the
configuration is empty/unset (lines 216-219). -/
def effectiveIgnoredWords (cfg : List String) : List String :=
  if cfg.isEmpty then defaultIgnoredWords else cfg

/-- `_is_ignored_single_word` (lines 208-221): only single-word results are
checked; the lowered result string is looked up in the ignore list. -/
def is_ignored_single_word (cfg : List String) (result_string : String) : Bool :=
  let words := pySplitWs (pyStrip result_string.toList)
  if words.length ≠ 1 then false
  else (effectiveIgnoredWords cfg).contains (lowerStr result_string)

/-- `listen_callback` (lines 161-168) applied to a finalized transcript:
empty results and ignored single words return without dispatching; otherwise
the transcript goes to `check_commands`.  The result is the dispatched
phrase, if any. -/
def listen_callback (cfg : List String) (commands_list : List String)
    (result_string : String) : Option String :=
  if result_string = "" then none
  else if is_ignored_single_word cfg result_string then none
  else check_commands commands_list result_string

/-- `_get_command_for_executing` (lines 701-721): first command in the
profile one of whose name parts has a variation whose lowering equals the
dispatched phrase. -/
def get_command_for_executing (p : Option Profile) (cmd_name : String) : Option CommandSpec :=
  match p with
  | none => none
  | some prof =>
    prof.commands.find? (fun w =>
      (splitCommandName (lowerStr (stripS w.name)).toList).any (fun part =>
        (expand_optional_brackets (stripS ⟨part⟩)).any (fun v => lowerStr v = cmd_name)))

/-- `n` iterations of `for w_action in actions: do_action(w_action)`,
returning the executed action trace.  Both repeat loops decrement an integer
counter while it is positive, so they run `toNat` of it many iterations. -/
def whileRepeat (actions : List Action) : Nat → List Action
  | 0 => []
  | n + 1 => actions ++ whileRepeat actions n

/-- The synchronous branch of `_do_command` (lines 689-695):
`w_repeat = max(w_repeat, 1)` then the while loop. -/
def do_command_sync_trace (c : CommandSpec) : List Action :=
  whileRepeat c.actions (max c.«repeat» 1).toNat

/-- `CommandThread.run` (lines 671-676) when the thread is never cancelled
(`m_stop` stays `False`): `while not self.m_stop and w_repeat > 0` executes
the action sequence `toNat m_repeat` times.  The async branch of
`_do_command` (line 697) passes `w_command['repeat']` unclamped. -/
def commandThreadRun (t : CommandThread) : List Action :=
  whileRepeat t.m_actions t.m_repeat.toNat

/-- The async branch of `_do_command` (lines 697-699): the spawned thread
record. -/
def do_command_async_thread (c : CommandSpec) : CommandThread :=
  { m_actions := c.actions, m_repeat := c.«repeat», m_stop := false }

/-- `_stop_command` (lines 726-729): only when the name is a key of
`m_cmd_threads` is the thread stopped and its entry deleted (`del` removes
exactly that key); otherwise nothing happens. -/
def stop_command (p_cmd_name : String) (st : ExecutorState) : ExecutorState :=
  if st.m_cmd_threads.any (fun e => e.1 = p_cmd_name) then
    { st with m_cmd_threads := st.m_cmd_threads.filter (fun e => ¬ e.1 = p_cmd_name) }
  else st

/-! ## Concrete profiles used in the claim theorems -/

def goCmd : CommandSpec := { name := "go", actions := [], «repeat» := 1, async := false }

def goHomeCmd : CommandSpec := { name := "go home", actions := [], «repeat» := 1, async := false }

/-- A profile whose table phrases are `{"go", "go home"}`. -/
def exProfile : Profile := { name := "p", commands := [goCmd, goHomeCmd] }

/-- A profile with a bracket-free command name containing a double space. -/
def doubleSpaceProfile : Profile :=
  { name := "p",
    commands := [{ name := "hello  world", actions := [], «repeat» := 1, async := false }] }

/-- A profile whose two comma-alternates expand to the same literal phrase. -/
def dupProfile : Profile :=
  { name := "p",
    commands := [{ name := "x, x", actions := [], «repeat» := 1, async := false }] }

/-- The phrases `set_profile` appends, as one flat list in append order. -/
def flatPhrases (prof : Profile) : List String :=
  prof.commands.flatMap (fun w =>
    (splitCommandName (lowerStr (stripS w.name)).toList).flatMap
      (fun part => expand_optional_brackets (stripS ⟨part⟩)))

/-- An async command with `repeat = 0`. -/
def zeroRepeatAsyncCmd : CommandSpec :=
  { name := "x", actions := [{ label := "key" }], «repeat» := 0, async := true }

/-- A state about to apply a grammar on an engine whose `SetGrammar` raises. -/
def grammarFailState : ExecutorState :=
  { m_profile := none, commands_list := ["go"], m_cmd_threads := [],
    recognizer := true, set_grammar := SetGrammarBehavior.raises "unsupported model",
    grammar_supported := true, grammar_applied := none, listening := false }

/-- No two adjacent whitespace characters. -/
def noDoubleWs : List Char → Bool
  | [] => true
  | [_] => true
  | a :: b :: rest => (!(a.isWhitespace && b.isWhitespace)) && noDoubleWs (b :: rest)

/-- The first character, when there is one, is not whitespace. -/
def noLeadWs : List Char → Bool
  | [] => true
  | c :: _ => !c.isWhitespace

/-- "Single-spaced" in the sense of the specification: no run of two or more
whitespace characters, no leading whitespace, no trailing whitespace. -/
def singleSpaced (s : String) : Bool :=
  noDoubleWs s.toList && noLeadWs s.toList && noLeadWs s.toList.reverse

/-- All characters a segment can contribute to a variation. -/
def segChars : Seg → List Char
  | Seg.fixed s => s
  | Seg.opt alts => alts.flatten

/-! ## Lemmas about the length-descending sort -/

theorem insertLenDesc_perm (x : String) (l : List String) :
    (insertLenDesc x l).Perm (x :: l) := by
  induction l with
  | nil => exact List.Perm.refl _
  | cons y ys ih =>
    unfold insertLenDesc
    split
    · exact ((ih.cons y).trans (List.Perm.swap x y ys))
    · exact List.Perm.refl _

theorem sortLenDesc_perm (l : List String) : (sortLenDesc l).Perm l := by
  induction l with
  | nil => exact List.Perm.refl _
  | cons x xs ih =>
    exact (insertLenDesc_perm x (sortLenDesc xs)).trans (ih.cons x)

theorem mem_insertLenDesc {y x : String} {l : List String} :
    y ∈ insertLenDesc x l ↔ y = x ∨ y ∈ l := by
  constructor
  · intro h
    have := (insertLenDesc_perm x l).mem_iff.mp h
    simpa using this
  · intro h
    apply (insertLenDesc_perm x l).mem_iff.mpr
    simpa using h

theorem pairwise_insertLenDesc (x : String) (l : List String)
    (h : l.Pairwise (fun a b => b.length ≤ a.length)) :
    (insertLenDesc x l).Pairwise (fun a b => b.length ≤ a.length) := by
  induction l with
  | nil => simp [insertLenDesc]
  | cons y ys ih =>
    rw [List.pairwise_cons] at h
    unfold insertLenDesc
    split
    · next hlt =>
      rw [List.pairwise_cons]
      refine ⟨?_, ih h.2⟩
      intro z hz
      rcases mem_insertLenDesc.mp hz with rfl | hz
      · omega
      · exact h.1 z hz
    · next hge =>
      rw [List.pairwise_cons]
      refine ⟨?_, List.pairwise_cons.mpr h⟩
      intro z hz
      rcases hz with _ | hz
      · omega
      · have := h.1 z (by assumption)
        omega

theorem sortLenDesc_sorted (l : List String) :
    (sortLenDesc l).Pairwise (fun a b => b.length ≤ a.length) := by
  induction l with
  | nil => simp [sortLenDesc]
  | cons x xs ih => exact pairwise_insertLenDesc x (sortLenDesc xs) ih

/-! ## The flat form of the phrase-building loop -/

theorem foldl_append_eq {α β : Type} (f : α → List β) (l : List α) (a : List β) :
    l.foldl (fun acc x => acc ++ f x) a = a ++ l.flatMap f := by
  induction l generalizing a with
  | nil => simp
  | cons x xs ih => simp [ih, List.append_assoc]

theorem foldl2_append_eq (cmds : List CommandSpec) (a : List String) :
    cmds.foldl
      (fun acc w =>
        (splitCommandName (lowerStr (stripS w.name)).toList).foldl
          (fun acc2 part => acc2 ++ expand_optional_brackets (stripS ⟨part⟩)) acc)
      a
    = a ++ cmds.flatMap (fun w =>
        (splitCommandName (lowerStr (stripS w.name)).toList).flatMap
          (fun part => expand_optional_brackets (stripS ⟨part⟩))) := by
  induction cmds generalizing a with
  | nil => simp
  | cons w ws ih => simp [List.foldl_cons, foldl_append_eq, ih, List.append_assoc]

theorem buildCommandsList_eq_flat (prof : Profile) :
    buildCommandsList prof = sortLenDesc (flatPhrases prof) := by
  unfold buildCommandsList flatPhrases
  rw [foldl2_append_eq]
  simp

/-! ## Claim C1 -/

/-- Claim C1: for the input "open [the, a] menu [now]", phrase expansion
returns exactly the six phrases "open the menu now", "open a menu now",
"open the menu", "open a menu", "open menu now", "open menu"; and for
"power up [the ship, the engines]" it returns exactly "power up the ship",
"power up the engines", "power up" — each bracket contributes omission plus
each comma-separated alternative, combined by Cartesian product. -/
theorem expand_bracket_examples :
    (expand_optional_brackets "open [the, a] menu [now]").Perm
      ["open the menu now", "open a menu now", "open the menu", "open a menu",
       "open menu now", "open menu"]
    ∧ (expand_optional_brackets "power up [the ship, the engines]").Perm
      ["power up the ship", "power up the engines", "power up"] := by
  constructor
  · decide
  · decide

/-! ## Claim C4 -/

/-- Counterexample to claim C4: for the profile whose single command is named
`"x, x"`, the two comma-alternates both expand to the phrase `"x"`, and the
command table registers it twice — the table is not duplicate-free. -/
theorem table_contains_duplicates :
    buildCommandsList dupProfile = ["x", "x"]
    ∧ ¬ (buildCommandsList dupProfile).Nodup := by
  constructor
  · decide
  · decide

/-- Claim C4 amended: the table is the length-sorted concatenation of all
expansion results of all comma-parts of all command names, with no
deduplication anywhere — and the sort is a permutation, so every duplicate
produced by the expansion is preserved in the table. -/
theorem table_is_sorted_concat_of_expansions :
    (∀ prof : Profile, buildCommandsList prof = sortLenDesc (flatPhrases prof))
    ∧ (∀ l : List String, (sortLenDesc l).Perm l) :=
  ⟨buildCommandsList_eq_flat, sortLenDesc_perm⟩

/-! ## Claim C2 -/

theorem check_commands_contains {tbl : List String} {t ph : String}
    (h : check_commands tbl t = some ph) : strContains t ph = true := by
  induction tbl with
  | nil => simp [check_commands] at h
  | cons c rest ih =>
    unfold check_commands at h
    by_cases hc : strContains t c = true
    · rw [if_pos hc] at h
      cases h
      exact hc
    · rw [if_neg hc] at h
      exact ih h

/-- Claim C2: command lookup scans the table's phrases from longest to
shortest (the table built by `set_profile` is length-descending), a phrase
matches when it is a substring of the transcript, the first match wins (at
most one command per finalized transcript, by the `break`), and with table
phrases {"go", "go home"} and transcript "please go home now" the command
owning "go home" is dispatched, never the one owning "go". -/
theorem lookup_longest_substring_first :
    (∀ prof : Profile,
      (buildCommandsList prof).Pairwise (fun a b => b.length ≤ a.length))
    ∧ (∀ (tbl : List String) (t ph : String),
        check_commands tbl t = some ph → strContains t ph = true)
    ∧ buildCommandsList exProfile = ["go home", "go"]
    ∧ check_commands (buildCommandsList exProfile) "please go home now" = some "go home"
    ∧ get_command_for_executing (some exProfile) "go home" = some goHomeCmd := by
  refine ⟨?_, ?_, by decide, by decide, by decide⟩
  · intro prof
    rw [buildCommandsList_eq_flat]
    exact sortLenDesc_sorted _
  · intro tbl t ph h
    exact check_commands_contains h

/-- Witness for claim C2's theorem: its substring conjunct applied at a
concrete table and transcript. -/
theorem lookup_longest_substring_first_witness :
    strContains "please go home now" "go home" = true :=
  lookup_longest_substring_first.2.1 (buildCommandsList exProfile)
    "please go home now" "go home" (by decide)

/-! ## Claim C9 -/

theorem apply_grammar_constraint_commands (st : ExecutorState) :
    (apply_grammar_constraint st).commands_list = st.commands_list := by
  unfold apply_grammar_constraint
  split
  · rfl
  · split
    · rfl
    · split <;> rfl

/-- Claim C9: rebuilding the command table is idempotent — calling
`set_profile` twice with the same profile value yields exactly the same
phrase list (same phrases, same order) as calling it once, because the list
is rebuilt from scratch from the profile alone. -/
theorem set_profile_idempotent (st : ExecutorState) (p : Option Profile) :
    (set_profile (set_profile st p) p).commands_list
      = (set_profile st p).commands_list := by
  cases p with
  | none => rfl
  | some prof =>
    show (apply_grammar_constraint _).commands_list
        = (apply_grammar_constraint _).commands_list
    rw [apply_grammar_constraint_commands, apply_grammar_constraint_commands]

/-! ## Claim C5 -/

/-- Counterexample to claim C5: for the async command with `repeat = 0`, the
spawned `CommandThread.run` loop (`while not m_stop and w_repeat > 0`) runs
the action sequence zero times, not once — `_do_command` clamps the repeat
count with `max(w_repeat, 1)` only on the synchronous branch and hands the
raw `repeat` to the thread on the asynchronous branch. -/
theorem async_repeat_zero_executes_nothing :
    zeroRepeatAsyncCmd.«repeat» ≤ 0
    ∧ zeroRepeatAsyncCmd.async = true
    ∧ commandThreadRun (do_command_async_thread zeroRepeatAsyncCmd) = []
    ∧ ([] : List Action) ≠ zeroRepeatAsyncCmd.actions := by
  refine ⟨by decide, by decide, by decide, by decide⟩

/-- Claim C5 amended: for every command whose `repeat` field is ≤ 0, the
synchronous path executes the action sequence exactly once (repeat is clamped
to 1), but the asynchronous path executes it zero times (the unclamped loop
guard `w_repeat > 0` fails immediately). -/
theorem repeat_nonpositive_sync_once_async_never (c : CommandSpec)
    (h : c.«repeat» ≤ 0) :
    do_command_sync_trace c = c.actions
    ∧ commandThreadRun (do_command_async_thread c) = [] := by
  constructor
  · unfold do_command_sync_trace
    have h1 : (max c.«repeat» 1).toNat = 1 := by omega
    rw [h1]
    simp [whileRepeat]
  · unfold commandThreadRun do_command_async_thread
    have h1 : c.«repeat».toNat = 0 := by omega
    simp only [h1]
    rfl

/-- Witness for claim C5's amended theorem, at a command with `repeat = -3`. -/
theorem repeat_nonpositive_sync_once_async_never_witness :
    do_command_sync_trace { zeroRepeatAsyncCmd with «repeat» := -3 }
        = [{ label := "key" }]
    ∧ commandThreadRun (do_command_async_thread
        { zeroRepeatAsyncCmd with «repeat» := -3 }) = [] :=
  repeat_nonpositive_sync_once_async_never _ (by decide)

/-! ## Claim C7 -/

/-- Claim C7: applying the grammar constraint never raises to its caller —
the whole `SetGrammar` interaction is wrapped in `try`/`except` (and a
`hasattr` test), so the embedded operation is a total function on states; when
the engine lacks the capability or `SetGrammar` raises, the operation returns
normally, leaves the applied grammar (and hence recognition constraining)
unchanged — in particular unconstrained recognition stays unconstrained — and
records `grammar_supported = false`. -/
theorem apply_grammar_never_fatal (st : ExecutorState)
    (hrec : st.recognizer = true) (hcmds : st.commands_list ≠ [])
    (hfail : st.set_grammar ≠ SetGrammarBehavior.succeeds) :
    (apply_grammar_constraint st).grammar_supported = false
    ∧ (apply_grammar_constraint st).grammar_applied = st.grammar_applied := by
  unfold apply_grammar_constraint
  rw [if_neg (by simp [hrec]), if_neg hcmds]
  match hsg : st.set_grammar with
  | SetGrammarBehavior.unavailable => exact ⟨rfl, rfl⟩
  | SetGrammarBehavior.raises msg => exact ⟨rfl, rfl⟩
  | SetGrammarBehavior.succeeds => exact absurd hsg hfail

/-- Witness for claim C7's theorem at a concrete failing engine. -/
theorem apply_grammar_never_fatal_witness :
    (apply_grammar_constraint grammarFailState).grammar_supported = false
    ∧ (apply_grammar_constraint grammarFailState).grammar_applied
        = grammarFailState.grammar_applied :=
  apply_grammar_never_fatal grammarFailState (by decide) (by decide) (by decide)

/-! ## Claim C8 -/

/-- Claim C8: stopping a command whose name is not registered in
`m_cmd_threads` is a no-op (the state is returned unchanged, no error), and
stopping a registered command removes exactly the entries with that name from
the registry (a dict holds one entry per key) while every other field of the
state is left unchanged. -/
theorem stop_command_spec (st : ExecutorState) (name : String) :
    (stop_command name st).m_cmd_threads
        = st.m_cmd_threads.filter (fun e => ¬ e.1 = name)
    ∧ (stop_command name st).m_profile = st.m_profile
    ∧ (stop_command name st).commands_list = st.commands_list
    ∧ (stop_command name st).recognizer = st.recognizer
    ∧ (stop_command name st).set_grammar = st.set_grammar
    ∧ (stop_command name st).grammar_supported = st.grammar_supported
    ∧ (stop_command name st).grammar_applied = st.grammar_applied
    ∧ (stop_command name st).listening = st.listening
    ∧ ((∀ e ∈ st.m_cmd_threads, e.1 ≠ name) → stop_command name st = st) := by
  unfold stop_command
  by_cases h : st.m_cmd_threads.any (fun e => e.1 = name)
  · rw [if_pos h]
    refine ⟨rfl, rfl, rfl, rfl, rfl, rfl, rfl, rfl, ?_⟩
    intro hall
    rcases List.any_eq_true.mp h with ⟨e, he, heq⟩
    exact absurd (of_decide_eq_true heq) (hall e he)
  · rw [if_neg h]
    refine ⟨?_, rfl, rfl, rfl, rfl, rfl, rfl, rfl, fun _ => rfl⟩
    rw [List.filter_eq_self.mpr]
    intro e he
    simp only [List.any_eq_true, not_exists, not_and] at h
    have := h e he
    simpa using this

/-- Witness for claim C8's theorem: stopping an unregistered name at a
concrete state is a no-op. -/
theorem stop_command_spec_witness :
    stop_command "up" grammarFailState = grammarFailState :=
  (stop_command_spec grammarFailState "up").2.2.2.2.2.2.2.2 (by decide)

/-! ## Claim C6 -/

/-- Claim C6: a finalized transcript that is a single word belonging to the
configured (or default) stop-word set is suppressed by
`_is_ignored_single_word` and never reaches `check_commands`; a transcript of
two or more words is never suppressed by this filter — even when every word
in it is a stop-word — and goes on to command dispatch. -/
theorem stopword_filter (cfg cmds : List String) (t : String) :
    ((pySplitWs (pyStrip t.toList)).length = 1 →
      (effectiveIgnoredWords cfg).contains (lowerStr t) = true →
        is_ignored_single_word cfg t = true ∧ listen_callback cfg cmds t = none)
    ∧ (2 ≤ (pySplitWs (pyStrip t.toList)).length →
        is_ignored_single_word cfg t = false
        ∧ listen_callback cfg cmds t = check_commands cmds t) := by
  constructor
  · intro hlen hmem
    have hig : is_ignored_single_word cfg t = true := by
      unfold is_ignored_single_word
      rw [if_neg (by omega)]
      exact hmem
    refine ⟨hig, ?_⟩
    unfold listen_callback
    by_cases ht : t = ""
    · rw [if_pos ht]
    · rw [if_neg ht, if_pos hig]
  · intro hlen
    have hig : is_ignored_single_word cfg t = false := by
      unfold is_ignored_single_word
      rw [if_pos (by omega)]
    refine ⟨hig, ?_⟩
    have ht : t ≠ "" := by
      intro ht
      subst ht
      simp [pyStrip, pySplitWs, splitWsAux] at hlen
    unfold listen_callback
    rw [if_neg ht, if_neg (by simp [hig])]

/-- Witness for claim C6's theorem: with the default stop-word set, the
single stop-word transcript "the" is suppressed, while the transcript
"to the" — both words of which are stop-words — is not suppressed and is
dispatched against the table. -/
theorem stopword_filter_witness :
    (is_ignored_single_word [] "the" = true
      ∧ listen_callback [] ["to the"] "the" = none)
    ∧ (is_ignored_single_word [] "to the" = false
      ∧ listen_callback [] ["to the"] "to the" = check_commands ["to the"] "to the") :=
  ⟨(stopword_filter [] ["to the"] "the").1 (by decide) (by decide),
   (stopword_filter [] ["to the"] "to the").2 (by decide)⟩

/-! ## Claim C10 -/

theorem segAlts_consFixed (c : Char) (segs : List Seg) :
    (consFixed c segs).filterMap segAlts = segs.filterMap segAlts := by
  unfold consFixed
  match segs with
  | [] => rfl
  | Seg.fixed s :: rest => simp [segAlts]
  | Seg.opt alts :: rest => simp [segAlts]

theorem scanSegs_no_bracket_no_opt (s : List Char) (h : '[' ∉ s) :
    (scanSegs none s).filterMap segAlts = [] := by
  induction s with
  | nil => rfl
  | cons c cs ih =>
    unfold scanSegs
    rw [if_neg (by simp at h; exact fun hc => h.1 hc.symm)]
    rw [segAlts_consFixed]
    exact ih (by simp at h; exact h.2)

/-- Claim C10: when the input text contains no bracketed span, expansion
returns the singleton list holding the input verbatim (no whitespace
collapsing); when brackets are present but every generated variation
collapses to the empty string, expansion returns the original text — square
brackets included — as the sole phrase. -/
theorem expand_fallback_verbatim (t : String) :
    ('[' ∉ t.toList → expand_optional_brackets t = [t])
    ∧ ((scanSegs none t.toList).filterMap segAlts ≠ [] →
        bracketVariations t = [] → expand_optional_brackets t = [t]) := by
  constructor
  · intro h
    unfold expand_optional_brackets
    rw [if_pos (scanSegs_no_bracket_no_opt t.toList h)]
  · intro hm hv
    unfold expand_optional_brackets
    rw [if_neg hm, if_pos hv]

/-- Witness for claim C10's theorem: the bracket-free input "hi  there" is
returned verbatim, double space preserved; the input "[ , ]" has a bracketed
span whose variations all collapse to empty, and is returned with its
brackets as the sole phrase. -/
theorem expand_fallback_verbatim_witness :
    expand_optional_brackets "hi  there" = ["hi  there"]
    ∧ expand_optional_brackets "[ , ]" = ["[ , ]"] :=
  ⟨(expand_fallback_verbatim "hi  there").1 (by decide),
   (expand_fallback_verbatim "[ , ]").2 (by decide) (by decide)⟩

/-! ## Claim C3: single-spacing and case of the table's phrases -/

/-- Counterexample to claim C3: the bracket-free command name
`"hello  world"` reaches the table verbatim (the no-match fallback of
`_expand_optional_brackets` skips whitespace normalization), so the table of
`doubleSpaceProfile` holds a phrase with a double space. -/
theorem table_phrase_not_single_spaced :
    buildCommandsList doubleSpaceProfile = ["hello  world"]
    ∧ "hello  world" ∈ buildCommandsList doubleSpaceProfile
    ∧ singleSpaced "hello  world" = false := by
  refine ⟨by decide, by decide, by decide⟩

theorem splitWsAux_words (cs : List Char) :
    ∀ cur, (∀ c ∈ cur, c.isWhitespace = false) →
      ∀ w ∈ splitWsAux cur cs, w ≠ [] ∧ ∀ c ∈ w, c.isWhitespace = false := by
  induction cs with
  | nil =>
    intro cur hcur w hw
    unfold splitWsAux at hw
    split at hw
    · simp at hw
    · next hne =>
      simp at hw
      subst hw
      refine ⟨by simpa using hne, ?_⟩
      intro c hc
      exact hcur c (by simpa using hc)
  | cons c cs ih =>
    intro cur hcur w hw
    unfold splitWsAux at hw
    split at hw
    · split at hw
      · exact ih [] (by simp) w hw
      · next hne =>
        rcases List.mem_cons.mp hw with rfl | hw
        · refine ⟨by simpa using hne, ?_⟩
          intro x hx
          exact hcur x (by simpa using hx)
        · exact ih [] (by simp) w hw
    · next hws =>
      refine ih (c :: cur) ?_ w hw
      intro x hx
      rcases List.mem_cons.mp hx with rfl | hx
      · simpa using hws
      · exact hcur x hx

theorem noDoubleWs_all_nonws :
    ∀ l : List Char, (∀ c ∈ l, c.isWhitespace = false) → noDoubleWs l = true := by
  intro l
  induction l with
  | nil => intro _; rfl
  | cons a t ih =>
    intro h
    match t with
    | [] => rfl
    | b :: rest =>
      unfold noDoubleWs
      rw [h a (by simp), ih (fun c hc => h c (List.mem_cons_of_mem a hc))]
      rfl

theorem noDoubleWs_append (w t : List Char)
    (hw : ∀ c ∈ w, c.isWhitespace = false) (ht : noDoubleWs t = true) :
    noDoubleWs (w ++ t) = true := by
  induction w with
  | nil => simpa using ht
  | cons a w' ih =>
    have ha : a.isWhitespace = false := hw a (by simp)
    have ih' : noDoubleWs (w' ++ t) = true :=
      ih (fun c hc => hw c (List.mem_cons_of_mem a hc))
    show noDoubleWs (a :: (w' ++ t)) = true
    cases hsplit : w' ++ t with
    | nil => rfl
    | cons x l =>
      unfold noDoubleWs
      rw [ha]
      rw [hsplit] at ih'
      rw [ih']
      rfl

theorem noLeadWs_append_of_ne_nil (l l' : List Char) (h : l ≠ []) :
    noLeadWs (l ++ l') = noLeadWs l := by
  match l with
  | [] => exact absurd rfl h
  | c :: t => rfl

theorem noLeadWs_of_all_nonws (l : List Char)
    (h : ∀ c ∈ l, c.isWhitespace = false) : noLeadWs l = true := by
  match l with
  | [] => rfl
  | c :: t =>
    show (!c.isWhitespace) = true
    rw [h c (by simp)]
    rfl

theorem joinSpace_good :
    ∀ ws : List (List Char),
      (∀ w ∈ ws, w ≠ [] ∧ ∀ c ∈ w, c.isWhitespace = false) →
      noDoubleWs (joinSpace ws) = true
      ∧ noLeadWs (joinSpace ws) = true
      ∧ noLeadWs (joinSpace ws).reverse = true
      ∧ (ws ≠ [] → joinSpace ws ≠ []) := by
  intro ws
  induction ws with
  | nil => intro _; exact ⟨rfl, rfl, rfl, fun h => absurd rfl h⟩
  | cons w ws ih =>
    intro h
    have hw := h w (by simp)
    match ws with
    | [] =>
      show noDoubleWs w = true ∧ noLeadWs w = true ∧ noLeadWs w.reverse = true ∧ _
      refine ⟨noDoubleWs_all_nonws w hw.2, noLeadWs_of_all_nonws w hw.2, ?_, fun _ => hw.1⟩
      refine noLeadWs_of_all_nonws w.reverse ?_
      intro c hc
      exact hw.2 c (List.mem_reverse.mp hc)
    | w' :: ws' =>
      have ihgood := ih (fun u hu => h u (List.mem_cons_of_mem w hu))
      have hJne : joinSpace (w' :: ws') ≠ [] := ihgood.2.2.2 (by simp)
      have hJeq : joinSpace (w :: w' :: ws') = w ++ ' ' :: joinSpace (w' :: ws') := rfl
      rw [hJeq]
      refine ⟨?_, ?_, ?_, ?_⟩
      · refine noDoubleWs_append w (' ' :: joinSpace (w' :: ws')) hw.2 ?_
        match hJ : joinSpace (w' :: ws') with
        | [] => exact absurd hJ hJne
        | x :: l =>
          unfold noDoubleWs
          have hx : x.isWhitespace = false := by
            have := ihgood.2.1
            rw [hJ] at this
            simpa [noLeadWs] using this
          rw [hx]
          have := ihgood.1
          rw [hJ] at this
          rw [this]
          rfl
      · rw [noLeadWs_append_of_ne_nil w _ hw.1]
        exact noLeadWs_of_all_nonws w hw.2
      · rw [List.reverse_append]
        have hrev : (' ' :: joinSpace (w' :: ws')).reverse
            = (joinSpace (w' :: ws')).reverse ++ [' '] := by
          simp
        rw [hrev, List.append_assoc]
        rw [noLeadWs_append_of_ne_nil _ _ (by simpa using hJne)]
        exact ihgood.2.2.1
      · intro _
        simp [hw.1]

theorem normalizeWs_good (v : List Char) :
    noDoubleWs (normalizeWs v) = true
    ∧ noLeadWs (normalizeWs v) = true
    ∧ noLeadWs (normalizeWs v).reverse = true := by
  have h := joinSpace_good (pySplitWs v)
    (fun w hw => splitWsAux_words v [] (by simp) w hw)
  exact ⟨h.1, h.2.1, h.2.2.1⟩

theorem bracketVariations_normalized (t ph : String)
    (h : ph ∈ bracketVariations t) : singleSpaced ph = true ∧ ph ≠ "" := by
  unfold bracketVariations at h
  rcases List.mem_map.mp h with ⟨v, hv, rfl⟩
  rcases List.mem_filter.mp hv with ⟨hvmem, hvne⟩
  have hvne' : v ≠ [] := by simpa using hvne
  rcases List.mem_map.mp hvmem with ⟨combo, _, rfl⟩
  constructor
  · unfold singleSpaced
    have hg := normalizeWs_good (buildVariation (scanSegs none t.toList) combo)
    have htl : (⟨normalizeWs (buildVariation (scanSegs none t.toList) combo)⟩ :
        String).toList = normalizeWs (buildVariation (scanSegs none t.toList) combo) := rfl
    rw [htl, hg.1, hg.2.1, hg.2.2]
    rfl
  · intro hcontra
    exact hvne' (congrArg String.data hcontra)

/-! ### Lower-case preservation through the phrase pipeline -/

theorem char_toNat_ofNat (n : Nat) (h : n.isValidChar) : (Char.ofNat n).toNat = n := by
  simp only [Char.ofNat, h, dif_pos, Char.ofNatAux, Char.toNat, UInt32.toNat,
    BitVec.toNat_ofNatLt]

theorem toLower_eq_of_upper (c : Char) (h : c.toNat ≥ 65 ∧ c.toNat ≤ 90) :
    c.toLower = Char.ofNat (c.toNat + 32) := by
  simp only [Char.toLower]
  rw [if_pos h]

theorem toLower_eq_of_not_upper (c : Char) (h : ¬(c.toNat ≥ 65 ∧ c.toNat ≤ 90)) :
    c.toLower = c := by
  simp only [Char.toLower]
  rw [if_neg h]

theorem char_toLower_idem (c : Char) : (c.toLower).toLower = c.toLower := by
  by_cases h : c.toNat ≥ 65 ∧ c.toNat ≤ 90
  · have hv : (c.toNat + 32).isValidChar := by left; omega
    have hn : (Char.ofNat (c.toNat + 32)).toNat = c.toNat + 32 := char_toNat_ofNat _ hv
    rw [toLower_eq_of_upper c h, toLower_eq_of_not_upper]
    rw [hn]
    omega
  · rw [toLower_eq_of_not_upper c h, toLower_eq_of_not_upper c h]

theorem lowerStr_chars (s : String) : ∀ c ∈ (lowerStr s).toList, c.toLower = c := by
  intro c hc
  have hc' : c ∈ s.toList.map Char.toLower := hc
  rcases List.mem_map.mp hc' with ⟨d, _, rfl⟩
  exact char_toLower_idem d

theorem mem_pyStrip {c : Char} {s : List Char} (h : c ∈ pyStrip s) : c ∈ s := by
  unfold pyStrip at h
  have h1 := List.mem_reverse.mp h
  have h2 := (List.dropWhile_sublist _).subset h1
  have h3 := List.mem_reverse.mp h2
  exact (List.dropWhile_sublist _).subset h3

theorem mem_consHead_chars {c x : Char} {ps : List (List Char)} {p : List Char}
    (hp : p ∈ consHead c ps) (hx : x ∈ p) : x = c ∨ ∃ q ∈ ps, x ∈ q := by
  cases ps with
  | nil =>
    simp [consHead] at hp
    subst hp
    simp at hx
    exact Or.inl hx
  | cons q qs =>
    rcases List.mem_cons.mp hp with rfl | hp
    · rcases List.mem_cons.mp hx with rfl | hx
      · exact Or.inl rfl
      · exact Or.inr ⟨q, by simp, hx⟩
    · exact Or.inr ⟨p, by simp [hp], hx⟩

theorem splitComma_chars :
    ∀ (s : List Char) (p : List Char), p ∈ splitComma s → ∀ x ∈ p, x ∈ s := by
  intro s
  induction s with
  | nil =>
    intro p hp x hx
    simp [splitComma] at hp
    subst hp
    simp at hx
  | cons c cs ih =>
    intro p hp x hx
    unfold splitComma at hp
    split at hp
    · rcases List.mem_cons.mp hp with rfl | hp
      · simp at hx
      · exact List.mem_cons_of_mem c (ih p hp x hx)
    · rcases mem_consHead_chars hp hx with rfl | ⟨q, hq, hxq⟩
      · simp
      · exact List.mem_cons_of_mem c (ih q hq x hxq)

theorem splitCommandName_chars :
    ∀ (s p : List Char), p ∈ splitCommandName s → ∀ x ∈ p, x ∈ s := by
  intro s
  induction s with
  | nil =>
    intro p hp x hx
    simp [splitCommandName] at hp
    subst hp
    simp at hx
  | cons c cs ih =>
    intro p hp x hx
    unfold splitCommandName at hp
    split at hp
    · rcases List.mem_cons.mp hp with rfl | hp
      · simp at hx
      · exact List.mem_cons_of_mem c (ih p hp x hx)
    · rcases mem_consHead_chars hp hx with rfl | ⟨q, hq, hxq⟩
      · simp
      · exact List.mem_cons_of_mem c (ih q hq x hxq)

theorem mem_consFixed_chars {c x : Char} {segs : List Seg} {seg : Seg}
    (hseg : seg ∈ consFixed c segs) (hx : x ∈ segChars seg) :
    x = c ∨ ∃ s' ∈ segs, x ∈ segChars s' := by
  match segs with
  | [] =>
    simp [consFixed] at hseg
    subst hseg
    simp [segChars] at hx
    exact Or.inl hx
  | Seg.fixed s :: rest =>
    rcases List.mem_cons.mp hseg with rfl | hseg
    · simp [segChars] at hx
      rcases hx with rfl | hx
      · exact Or.inl rfl
      · exact Or.inr ⟨Seg.fixed s, by simp, hx⟩
    · exact Or.inr ⟨seg, by simp [hseg], hx⟩
  | Seg.opt alts :: rest =>
    rcases List.mem_cons.mp hseg with rfl | hseg
    · simp [segChars] at hx
      exact Or.inl hx
    · exact Or.inr ⟨seg, by simp [hseg], hx⟩

theorem scanSegs_chars :
    ∀ (s : List Char) (pend : Option (List Char)) (seg : Seg),
      seg ∈ scanSegs pend s → ∀ x ∈ segChars seg,
        (∃ acc, pend = some acc ∧ x ∈ acc) ∨ x ∈ s ∨ x = '[' := by
  intro s
  induction s with
  | nil =>
    intro pend seg hseg x hx
    match pend with
    | none => simp [scanSegs] at hseg
    | some acc =>
      simp [scanSegs] at hseg
      subst hseg
      simp [segChars] at hx
      rcases hx with rfl | hx
      · exact Or.inr (Or.inr rfl)
      · exact Or.inl ⟨acc, rfl, hx⟩
  | cons c cs ih =>
    intro pend seg hseg x hx
    match pend with
    | none =>
      rw [show scanSegs none (c :: cs)
          = if c = '[' then scanSegs (some []) cs else consFixed c (scanSegs none cs)
        from rfl] at hseg
      split at hseg
      · rcases ih (some []) seg hseg x hx with ⟨acc, hacc, hmem⟩ | h | h
        · rw [Option.some.injEq] at hacc
          subst hacc
          simp at hmem
        · exact Or.inr (Or.inl (List.mem_cons_of_mem c h))
        · exact Or.inr (Or.inr h)
      · rcases mem_consFixed_chars hseg hx with rfl | ⟨s', hs', hx'⟩
        · exact Or.inr (Or.inl (by simp))
        · rcases ih none s' hs' x hx' with ⟨acc, hacc, _⟩ | h | h
          · exact Option.noConfusion hacc
          · exact Or.inr (Or.inl (List.mem_cons_of_mem c h))
          · exact Or.inr (Or.inr h)
    | some acc =>
      rw [show scanSegs (some acc) (c :: cs)
          = if c = ']' then
              (if acc = [] then consFixed '[' (consFixed ']' (scanSegs none cs))
               else Seg.opt ((splitComma acc.reverse).map pyStrip) :: scanSegs none cs)
            else scanSegs (some (c :: acc)) cs
        from rfl] at hseg
      split at hseg
      · next hc =>
        subst hc
        split at hseg
        · rcases mem_consFixed_chars hseg hx with rfl | ⟨s1, hs1, hx1⟩
          · exact Or.inr (Or.inr rfl)
          · rcases mem_consFixed_chars hs1 hx1 with rfl | ⟨s2, hs2, hx2⟩
            · exact Or.inr (Or.inl (by simp))
            · rcases ih none s2 hs2 x hx2 with ⟨a, ha, _⟩ | h | h
              · exact Option.noConfusion ha
              · exact Or.inr (Or.inl (List.mem_cons_of_mem _ h))
              · exact Or.inr (Or.inr h)
        · rcases List.mem_cons.mp hseg with rfl | hseg
          · simp only [segChars] at hx
            rcases List.mem_flatten.mp hx with ⟨a, ha, hxa⟩
            rcases List.mem_map.mp ha with ⟨piece, hpiece, rfl⟩
            have h1 : x ∈ piece := mem_pyStrip hxa
            have h2 : x ∈ acc.reverse := splitComma_chars _ _ hpiece x h1
            exact Or.inl ⟨acc, rfl, List.mem_reverse.mp h2⟩
          · rcases ih none seg hseg x hx with ⟨a, ha, _⟩ | h | h
            · exact Option.noConfusion ha
            · exact Or.inr (Or.inl (List.mem_cons_of_mem _ h))
            · exact Or.inr (Or.inr h)
      · rcases ih (some (c :: acc)) seg hseg x hx with ⟨a, ha, hmem⟩ | h | h
        · rw [Option.some.injEq] at ha
          subst ha
          rcases List.mem_cons.mp hmem with rfl | hmem
          · exact Or.inr (Or.inl (by simp))
          · exact Or.inl ⟨acc, rfl, hmem⟩
        · exact Or.inr (Or.inl (List.mem_cons_of_mem c h))
        · exact Or.inr (Or.inr h)

theorem product_mem {α : Type} :
    ∀ (ls : List (List α)) (combo : List α),
      combo ∈ product ls → ∀ x ∈ combo, ∃ l ∈ ls, x ∈ l := by
  intro ls
  induction ls with
  | nil =>
    intro combo hc x hx
    simp [product] at hc
    subst hc
    simp at hx
  | cons l ls ih =>
    intro combo hc x hx
    unfold product at hc
    rcases List.mem_flatMap.mp hc with ⟨y, hy, hcombo⟩
    rcases List.mem_map.mp hcombo with ⟨r, hr, rfl⟩
    rcases List.mem_cons.mp hx with rfl | hx
    · exact ⟨l, by simp, hy⟩
    · rcases ih r hr x hx with ⟨l', hl', hxl'⟩
      exact ⟨l', by simp [hl'], hxl'⟩

theorem choiceLists_mem {segs : List Seg} {l : List (Option (List Char))}
    (hl : l ∈ choiceLists segs) :
    ∀ ch ∈ l, ch = none ∨ ∃ alts, Seg.opt alts ∈ segs ∧ ∃ a ∈ alts, ch = some a := by
  unfold choiceLists at hl
  rcases List.mem_map.mp hl with ⟨alts, halts, rfl⟩
  rcases List.mem_filterMap.mp halts with ⟨seg, hseg, hsa⟩
  have hseg' : Seg.opt alts ∈ segs := by
    cases seg with
    | fixed s => simp [segAlts] at hsa
    | opt as =>
      simp [segAlts] at hsa
      subst hsa
      exact hseg
  intro ch hch
  rcases List.mem_cons.mp hch with rfl | hch
  · exact Or.inl rfl
  · rcases List.mem_map.mp hch with ⟨a, ha, rfl⟩
    exact Or.inr ⟨alts, hseg', a, ha, rfl⟩

theorem buildVariation_chars :
    ∀ (segs : List Seg) (choices : List (Option (List Char))) (x : Char),
      x ∈ buildVariation segs choices →
        (∃ seg ∈ segs, x ∈ segChars seg)
        ∨ ∃ ch ∈ choices, ∃ s, ch = some s ∧ x ∈ s := by
  intro segs
  induction segs with
  | nil =>
    intro choices x hx
    simp [buildVariation] at hx
  | cons seg rest ih =>
    intro choices x hx
    match seg with
    | Seg.fixed s =>
      rw [show buildVariation (Seg.fixed s :: rest) choices
          = s ++ buildVariation rest choices from rfl] at hx
      rcases List.mem_append.mp hx with hx | hx
      · exact Or.inl ⟨Seg.fixed s, by simp, hx⟩
      · rcases ih choices x hx with ⟨sg, hsg, hxs⟩ | ⟨ch, hch, hs⟩
        · exact Or.inl ⟨sg, by simp [hsg], hxs⟩
        · exact Or.inr ⟨ch, hch, hs⟩
    | Seg.opt alts =>
      match choices with
      | [] =>
        rw [show buildVariation (Seg.opt alts :: rest) []
            = buildVariation rest [] from rfl] at hx
        rcases ih [] x hx with ⟨sg, hsg, hxs⟩ | ⟨ch, hch, _⟩
        · exact Or.inl ⟨sg, by simp [hsg], hxs⟩
        · simp at hch
      | ch :: chs =>
        rw [show buildVariation (Seg.opt alts :: rest) (ch :: chs)
            = ch.getD [] ++ buildVariation rest chs from rfl] at hx
        rcases List.mem_append.mp hx with hx | hx
        · match ch with
          | none => simp [Option.getD] at hx
          | some s => exact Or.inr ⟨some s, by simp, s, rfl, hx⟩
        · rcases ih chs x hx with ⟨sg, hsg, hxs⟩ | ⟨ch', hch', hs⟩
          · exact Or.inl ⟨sg, by simp [hsg], hxs⟩
          · exact Or.inr ⟨ch', List.mem_cons_of_mem ch hch', hs⟩

theorem splitWsAux_chars :
    ∀ (cs cur : List Char) (w : List Char),
      w ∈ splitWsAux cur cs → ∀ x ∈ w, x ∈ cur ∨ x ∈ cs := by
  intro cs
  induction cs with
  | nil =>
    intro cur w hw x hx
    unfold splitWsAux at hw
    split at hw
    · simp at hw
    · simp at hw
      subst hw
      exact Or.inl (List.mem_reverse.mp hx)
  | cons c cs ih =>
    intro cur w hw x hx
    unfold splitWsAux at hw
    split at hw
    · split at hw
      · rcases ih [] w hw x hx with h | h
        · simp at h
        · exact Or.inr (List.mem_cons_of_mem c h)
      · rcases List.mem_cons.mp hw with rfl | hw
        · exact Or.inl (List.mem_reverse.mp hx)
        · rcases ih [] w hw x hx with h | h
          · simp at h
          · exact Or.inr (List.mem_cons_of_mem c h)
    · rcases ih (c :: cur) w hw x hx with h | h
      · rcases List.mem_cons.mp h with rfl | h
        · exact Or.inr (by simp)
        · exact Or.inl h
      · exact Or.inr (List.mem_cons_of_mem c h)

theorem joinSpace_chars :
    ∀ (ws : List (List Char)) (x : Char),
      x ∈ joinSpace ws → x = ' ' ∨ ∃ w ∈ ws, x ∈ w := by
  intro ws
  induction ws with
  | nil =>
    intro x hx
    simp [joinSpace] at hx
  | cons w ws ih =>
    intro x hx
    match ws with
    | [] =>
      exact Or.inr ⟨w, by simp, hx⟩
    | w' :: ws' =>
      rw [show joinSpace (w :: w' :: ws') = w ++ ' ' :: joinSpace (w' :: ws') from rfl] at hx
      rcases List.mem_append.mp hx with hx | hx
      · exact Or.inr ⟨w, by simp, hx⟩
      · rcases List.mem_cons.mp hx with rfl | hx
        · exact Or.inl rfl
        · rcases ih x hx with h | ⟨u, hu, hxu⟩
          · exact Or.inl h
          · exact Or.inr ⟨u, List.mem_cons_of_mem w hu, hxu⟩

theorem normalizeWs_chars (v : List Char) (x : Char) (hx : x ∈ normalizeWs v) :
    x = ' ' ∨ x ∈ v := by
  rcases joinSpace_chars _ x hx with h | ⟨w, hw, hxw⟩
  · exact Or.inl h
  · rcases splitWsAux_chars v [] w hw x hxw with h | h
    · simp at h
    · exact Or.inr h

theorem expand_chars (t ph : String) (h : ph ∈ expand_optional_brackets t) :
    ∀ x ∈ ph.toList, x ∈ t.toList ∨ x = ' ' ∨ x = '[' := by
  intro x hx
  unfold expand_optional_brackets at h
  split at h
  · rcases List.mem_singleton.mp h with rfl
    exact Or.inl hx
  · split at h
    · rcases List.mem_singleton.mp h with rfl
      exact Or.inl hx
    · unfold bracketVariations at h
      rcases List.mem_map.mp h with ⟨v, hv, rfl⟩
      rcases List.mem_filter.mp hv with ⟨hvmem, _⟩
      rcases List.mem_map.mp hvmem with ⟨combo, hcombo, rfl⟩
      rcases normalizeWs_chars _ x hx with rfl | hxv
      · exact Or.inr (Or.inl rfl)
      · rcases buildVariation_chars _ _ x hxv with ⟨seg, hseg, hxs⟩ | ⟨ch, hch, s, rfl, hxs⟩
        · rcases scanSegs_chars t.toList none seg hseg x hxs with ⟨a, ha, _⟩ | h' | h'
          · exact Option.noConfusion ha
          · exact Or.inl h'
          · exact Or.inr (Or.inr h')
        · rcases product_mem _ _ hcombo _ hch with ⟨l, hl, hchl⟩
          rcases choiceLists_mem hl _ hchl with hnone | ⟨alts, halts, a, ha, heq⟩
          · exact Option.noConfusion hnone
          · rw [Option.some.injEq] at heq
            subst heq
            have hxalts : x ∈ segChars (Seg.opt alts) := by
              simp only [segChars]
              exact List.mem_flatten.mpr ⟨s, ha, hxs⟩
            rcases scanSegs_chars t.toList none _ halts x hxalts with ⟨b, hb, _⟩ | h' | h'
            · exact Option.noConfusion hb
            · exact Or.inl h'
            · exact Or.inr (Or.inr h')

theorem map_toLower_eq_self {l : List Char} (h : ∀ c ∈ l, c.toLower = c) :
    l.map Char.toLower = l := by
  induction l with
  | nil => rfl
  | cons c t ih =>
    simp only [List.map_cons]
    rw [h c (by simp), ih (fun d hd => h d (List.mem_cons_of_mem c hd))]

theorem buildCommandsList_lower (p : Profile) (ph : String)
    (h : ph ∈ buildCommandsList p) : lowerStr ph = ph := by
  rw [buildCommandsList_eq_flat] at h
  have h' : ph ∈ flatPhrases p := (sortLenDesc_perm _).mem_iff.mp h
  unfold flatPhrases at h'
  rcases List.mem_flatMap.mp h' with ⟨w, _, hph⟩
  rcases List.mem_flatMap.mp hph with ⟨part, hpart, hexp⟩
  have hLC : ∀ x ∈ ph.toList, x.toLower = x := by
    intro x hx
    rcases expand_chars _ _ hexp x hx with hx' | rfl | rfl
    · have hx'' : x ∈ part := mem_pyStrip hx'
      have hx3 : x ∈ (lowerStr (stripS w.name)).toList :=
        splitCommandName_chars _ _ hpart x hx''
      exact lowerStr_chars _ x hx3
    · decide
    · decide
  show (⟨ph.toList.map Char.toLower⟩ : String) = ph
  rw [map_toLower_eq_self hLC]
  rfl

/-- Claim C3 amended: every phrase stored in the table is lower-case (the
command name is lowered before splitting, and no later step introduces an
upper-case character); the phrases produced by the Cartesian-product
expansion path are additionally single-spaced and non-empty.  As stated the
claim is false (see the counterexample): a name part without brackets — or
one whose variations all collapse to empty — is registered verbatim by the
fallback, so the table can hold phrases with internal whitespace runs, or
even empty phrases (e.g. the name "a,,b"). -/
theorem table_phrases_lowercase_and_variations_normalized :
    (∀ (p : Profile) (ph : String), ph ∈ buildCommandsList p → lowerStr ph = ph)
    ∧ (∀ (t ph : String), ph ∈ bracketVariations t →
        singleSpaced ph = true ∧ ph ≠ "") :=
  ⟨buildCommandsList_lower, bracketVariations_normalized⟩

/-- Witness for claim C3's amended theorem: the table phrase "go home" of
`exProfile` is its own lowering, and the expansion variation "open menu" of
"open [the, a] menu [now]" is single-spaced and non-empty. -/
theorem table_phrases_lowercase_and_variations_normalized_witness :
    lowerStr "go home" = "go home"
    ∧ (singleSpaced "open menu" = true ∧ "open menu" ≠ "") :=
  ⟨table_phrases_lowercase_and_variations_normalized.1 exProfile "go home" (by decide),
   table_phrases_lowercase_and_variations_normalized.2 "open [the, a] menu [now]"
     "open menu" (by decide)⟩

end LinVAM
